import Mathlib

/-!
Verification development for a piece-table text buffer.

The definitions below are a shallow embedding of the Rust implementation in
`src/src/lib.rs`.  Rust `String`s are modelled as `List Char` and `usize` as
`Nat` (the code only ever adds small quantities, so no overflow is reachable;
every subtraction the code performs is either a `checked_sub(..).unwrap()`,
modelled as an `Option` where `none` stands for the panic, or a plain `-`
whose non-underflow is guaranteed by the guarding branch condition, modelled
as truncated `Nat` subtraction).  Fallible operations (panicking `unwrap`s,
panicking `Vec` index arithmetic, panicking string slicing) return `Option`,
with `none` standing for the panic.
-/

set_option maxRecDepth 8000

/-- Which backing buffer a piece references (Rust `enum Buffer`). -/
inductive Buffer : Type where
  | Original : Buffer
  | Add : Buffer
  deriving DecidableEq, Repr

/-- A piece: a reference `(buffer, length, offset)` into a backing buffer
(Rust `struct Piece`, field order as in the source). -/
structure Piece : Type where
  buffer : Buffer
  length : Nat
  offset : Nat
  deriving DecidableEq, Repr

/-- The piece table (Rust `struct PieceTable`): the immutable `original`
buffer, the append-only `add` buffer and the ordered piece sequence. -/
structure PieceTable : Type where
  original : List Char
  add : List Char
  pieces : List Piece
  deriving DecidableEq, Repr

/-- Rust `Vec::insert(i, a)`: shifts elements from position `i` rightwards.
All call sites in the source have `i ≤ l.length`, where this agrees with
`Vec::insert` (which would panic for larger `i`). -/
def vecInsert {α : Type} (l : List α) (i : Nat) (a : α) : List α :=
  l.take i ++ a :: l.drop i

/-- Rust `v[i] = a`.  All call sites in the source have `i < l.length`,
where this agrees with the Rust index assignment. -/
def vecSet {α : Type} (l : List α) (i : Nat) (a : α) : List α :=
  l.take i ++ a :: l.drop (i + 1)

/-- Rust `Vec::remove(i)`.  All call sites in the source have
`i < l.length`, where this agrees with `Vec::remove`. -/
def vecRemove {α : Type} (l : List α) (i : Nat) : List α :=
  l.take i ++ l.drop (i + 1)

/-- Rust `usize::checked_sub`; `none` models the `unwrap()` panic. -/
def checked_sub (a b : Nat) : Option Nat :=
  if b ≤ a then some (a - b) else none

/-- Sum of the piece lengths, as accumulated by the loop in
`PieceTable::length`. -/
def totalLen : List Piece → Nat
  | [] => 0
  | p :: ps => p.length + totalLen ps

/-- `PieceTable::new`: one piece spanning all of `original` (also when
`original` is empty, in which case the stored piece has length 0). -/
def PieceTable.new (original : List Char) : PieceTable :=
  { original := original, add := [], pieces := [⟨Buffer.Original, original.length, 0⟩] }

/-- `PieceTable::length`: the sum of the stored piece lengths. -/
def PieceTable.length (t : PieceTable) : Nat :=
  totalLen t.pieces

/-- The loop body of `PieceTable::piece_at`: scan the pieces accumulating the
running total; a piece covers document offsets
`[running_total, running_total + piece.length)` (Rust `range.contains`). -/
def pieceAtAux (off : Nat) : List Piece → Nat → Nat → Option (Piece × Nat × Nat)
  | [], _, _ => none
  | piece :: rest, index, running_total =>
    if running_total ≤ off ∧ off < piece.length + running_total then
      some (piece, index, running_total)
    else
      pieceAtAux off rest (index + 1) (running_total + piece.length)

/-- `PieceTable::piece_at`: the covering piece, its index, and the running
total at which its span begins. -/
def PieceTable.piece_at (t : PieceTable) (off : Nat) : Option (Piece × Nat × Nat) :=
  pieceAtAux off t.pieces 0 0

/-- `PieceTable::char_at`: resolve via `piece_at`, then index the named
buffer at `piece.offset + offset - running_total` (`chars().nth`, which is
`List.get?` in the character-list model).  The subtraction cannot underflow
because `piece_at` only returns hits with `running_total ≤ offset`. -/
def PieceTable.char_at (t : PieceTable) (off : Nat) : Option Char :=
  match t.piece_at off with
  | some (piece, _index, running_total) =>
    match piece.buffer with
    | Buffer.Original => t.original.get? (piece.offset + off - running_total)
    | Buffer.Add => t.add.get? (piece.offset + off - running_total)
  | none => none

/-- `PieceTable::insert`.  `none` models a panic: the two
`checked_sub(..).unwrap()` calls and the `index -= 1` underflow in the
omitted-left-remainder branch.  The Rust `if let Some(..) = self.piece_at(..)`
with no `else` is the `| none => some t` arm (nothing happens). -/
def PieceTable.insert (t : PieceTable) (off : Nat) (content : List Char) : Option PieceTable :=
  let total_length := t.length
  if content = [] then some t
  else if off = 0 then
    some { t with pieces := vecInsert t.pieces 0 ⟨Buffer.Add, content.length, t.add.length⟩,
                  add := t.add ++ content }
  else if total_length ≤ off then
    some { t with pieces := t.pieces ++ [⟨Buffer.Add, content.length, t.add.length⟩],
                  add := t.add ++ content }
  else
    match t.piece_at off with
    | none => some t
    | some (piece_to_split, index, total) =>
      match checked_sub off total with
      | none => none
      | some remaining_length =>
        let remaining : Piece := ⟨piece_to_split.buffer, remaining_length, piece_to_split.offset⟩
        match checked_sub piece_to_split.length remaining_length with
        | none => none
        | some new_length =>
          let np : Piece := ⟨piece_to_split.buffer, new_length, remaining_length + piece_to_split.offset⟩
          let new_add : Piece := ⟨Buffer.Add, content.length, t.add.length⟩
          let pieces1 := vecInsert t.pieces (index + 1) new_add
          let add1 := t.add ++ content
          if 0 < remaining_length then
            some { t with pieces := vecInsert (vecSet pieces1 index remaining) (index + 2) np,
                          add := add1 }
          else if index = 0 then none
          else
            some { t with pieces := vecInsert (vecRemove pieces1 index) (index - 1 + 2) np,
                          add := add1 }

/-- The `retain_mut` pass of `PieceTable::delete`: classify each piece's span
`[piece_start, piece_end)` against the delete range `[dstart, dend)`.
Returns the retained (possibly rewritten) pieces and the `split` flag.
The two plain subtractions (`dend - piece_start` and `piece.length - diff`)
cannot underflow in the branches where the source performs them. -/
def retainAux (dstart dend : Nat) : List Piece → Nat → Bool → List Piece × Bool
  | [], _, split => ([], split)
  | piece :: rest, running_total, split =>
    let piece_start := running_total
    let piece_end := piece.length + running_total
    let rt := running_total + piece.length
    if (dstart ≤ piece_start ∧ piece_start < dend) ∧ (dstart ≤ piece_end ∧ piece_end < dend) then
      retainAux dstart dend rest rt split
    else if dstart ≤ piece_start ∧ piece_start < dend then
      let diff := dend - piece_start
      if piece.length - diff = 0 then
        retainAux dstart dend rest rt split
      else
        let kept : Piece := ⟨piece.buffer, piece.length - diff, piece.offset + diff⟩
        let r := retainAux dstart dend rest rt split
        (kept :: r.1, r.2)
    else if dstart ≤ piece_end ∧ piece_end < dend then
      let kept : Piece := ⟨piece.buffer, dstart, piece.offset⟩
      let r := retainAux dstart dend rest rt split
      (kept :: r.1, r.2)
    else if piece_start < dstart ∧ dend < piece_end then
      let r := retainAux dstart dend rest rt true
      (piece :: r.1, r.2)
    else
      let r := retainAux dstart dend rest rt split
      (piece :: r.1, r.2)

/-- `PieceTable::delete`.  `none` models the `checked_sub(..).unwrap()`
panics of the second (split) pass. -/
def PieceTable.delete (t : PieceTable) (off len : Nat) : Option PieceTable :=
  let total_length := t.length
  if total_length < len ∧ off = 0 then
    some { t with pieces := [] }
  else
    let dend := off + len
    let res := retainAux off dend t.pieces 0 false
    let t1 : PieceTable := { t with pieces := res.1 }
    if res.2 then
      match t1.piece_at off with
      | none => some t1
      | some (piece_to_split, index, total) =>
        if piece_to_split.length = len then
          some { t1 with pieces := vecRemove t1.pieces index }
        else if len < piece_to_split.length then
          match checked_sub piece_to_split.length (off + len) with
          | none => none
          | some new_length =>
            let np : Piece := ⟨piece_to_split.buffer, new_length, off + len + piece_to_split.offset⟩
            match checked_sub off total with
            | none => none
            | some remaining_length =>
              let remaining : Piece := ⟨piece_to_split.buffer, remaining_length, piece_to_split.offset⟩
              some { t1 with pieces := vecInsert (vecSet t1.pieces index remaining) (index + 1) np }
        else some t1
    else some t1

/-- The buffer a piece's `buffer` tag names. -/
def bufferOf (t : PieceTable) : Buffer → List Char
  | Buffer.Original => t.original
  | Buffer.Add => t.add

/-- The substring a piece references: Rust `&buf[offset..offset + length]`;
`none` models the slice panic when the range exceeds the buffer. -/
def pieceContent (t : PieceTable) (p : Piece) : Option (List Char) :=
  if p.offset + p.length ≤ (bufferOf t p.buffer).length then
    some (((bufferOf t p.buffer).drop p.offset).take p.length)
  else none

/-- The loop of `PieceTable::display`: concatenate each piece's referenced
substring in sequence order; `none` if any slice panics. -/
def displayAux (t : PieceTable) : List Piece → Option (List Char)
  | [] => some []
  | p :: ps =>
    match pieceContent t p, displayAux t ps with
    | some c, some rest => some (c ++ rest)
    | _, _ => none

/-- `PieceTable::display` (the `Display`/materialize output). -/
def PieceTable.display (t : PieceTable) : Option (List Char) :=
  displayAux t t.pieces

/-- Reference-string insert from the round-trip claim: splice `c` in at
`off` of a mutable string. -/
def strInsert (s : List Char) (off : Nat) (c : List Char) : List Char :=
  s.take off ++ c ++ s.drop off

/-- Reference-string delete from the round-trip claim: remove the clamped
range `[off, off + cnt)`. -/
def strDelete (s : List Char) (off cnt : Nat) : List Char :=
  s.take off ++ s.drop (off + cnt)

/-- Spec §3 invariant 2: every piece stays inside the buffer it names. -/
abbrev BufferBounds (t : PieceTable) : Prop :=
  ∀ p ∈ t.pieces, p.offset + p.length ≤ (bufferOf t p.buffer).length

/-- Spec §3 invariant 3: no stored piece has length 0. -/
abbrev NoZeroPieces (t : PieceTable) : Prop :=
  ∀ p ∈ t.pieces, 0 < p.length

/-- The §3 invariants that are not definitional in this embedding
(invariants 1 and 4 hold by construction: document length and content are
defined from the pieces; piece spans are derived from running totals, so the
partition property is built in). -/
abbrev Invariants (t : PieceTable) : Prop :=
  BufferBounds t ∧ NoZeroPieces t

/-- Sanity check: the source's own test (spec Scenario A) reproduces
`Lorem ipsum dolor sit amet` and `char_at 15 = 'o'` in this embedding. -/
theorem scenario_a_sanity :
  ((((((PieceTable.new ("ipsum sit amet").data).insert 0 ("Lorem ").data).bind
      (fun t => t.insert 6 ("deletedtext").data)).bind
      (fun t => t.delete 6 11)).bind
      (fun t => t.insert 11 (" dolor").data)).bind PieceTable.display
    = some ("Lorem ipsum dolor sit amet").data)
  ∧ (((((PieceTable.new ("ipsum sit amet").data).insert 0 ("Lorem ").data).bind
      (fun t => t.insert 6 ("deletedtext").data)).bind
      (fun t => t.delete 6 11)).bind
      (fun t => t.insert 11 (" dolor").data)).map (fun t => t.char_at 15)
    = some (some 'o') := by
  constructor
  · rfl
  · rfl

/-- Claim C1: the round-trip property fails.  Starting from `abcde`, after
`insert(5, "fghij")` the document is `abcdefghij`; the reference string
semantics make `delete(7, 3)` yield `abcdefg`, but the code's delete leaves
the document unchanged (`abcdefghij`): the delete range ends exactly at the
covering piece's end, so no branch of the retain pass fires. -/
theorem roundtrip_violation :
  ((((PieceTable.new ("abcde").data).insert 5 ("fghij").data).bind
      (fun t => t.delete 7 3)).bind PieceTable.display
    = some ("abcdefghij").data)
  ∧ strDelete (strInsert ("abcde").data 5 ("fghij").data) 7 3 = ("abcdefg").data
  ∧ ("abcdefghij").data ≠ ("abcdefg").data := by
  refine ⟨rfl, rfl, ?_⟩
  decide

/-- Claim C2: a delete strictly inside a single piece does not split it in
two when the piece is not the first one; the code computes the right
remainder's length as `piece.length - (offset + count)` with the absolute
document offset, and the `checked_sub(..).unwrap()` panics (modelled as
`none`).  Here the delete range `[12, 15)` lies strictly inside the second
piece's span `[10, 20)`. -/
theorem delete_split_panics :
  ((PieceTable.new ("abcdefghij").data).insert 10 ("ABCDEFGHIJ").data).bind
    (fun t => t.delete 12 3) = none := by
  rfl

/-- Claim C3: `delete(offset, count)` with `offset == length()` is not a
no-op.  On the table for `abcdefgh` with pieces `[Original 5, Add 3]`,
`delete(8, 2)` hits the `contains(piece_end)` branch (the half-open delete
range `[8, 10)` contains the last piece's end 8) and sets that piece's
length to the absolute offset 8, so `length()` becomes 13 and `display`
panics (the piece overruns the 3-character add buffer). -/
theorem delete_at_end_corrupts :
  (((PieceTable.new ("abcde").data).insert 5 ("fgh").data).bind (fun t => t.delete 8 2)
    = some ⟨("abcde").data, ("fgh").data,
        [⟨Buffer.Original, 5, 0⟩, ⟨Buffer.Add, 8, 0⟩]⟩)
  ∧ (⟨("abcde").data, ("fgh").data,
        [⟨Buffer.Original, 5, 0⟩, ⟨Buffer.Add, 8, 0⟩]⟩ : PieceTable).display = none
  ∧ (⟨("abcde").data, ("fgh").data,
        [⟨Buffer.Original, 5, 0⟩, ⟨Buffer.Add, 8, 0⟩]⟩ : PieceTable).length = 13 := by
  refine ⟨?_, rfl, rfl⟩
  decide

/-- Claim C4: `new("")` stores a zero-length piece: the constructor always
records one piece spanning `original`, also when `original` is empty. -/
theorem new_empty_zero_length :
  (PieceTable.new []).pieces = [⟨Buffer.Original, 0, 0⟩]
  ∧ ∃ p ∈ (PieceTable.new []).pieces, p.length = 0 := by
  constructor
  · rfl
  · decide

/-- Claim C5: the buffer-bounds invariant is broken by a public operation:
after `new("abcde")`, `insert(5, "fgh")` and `delete(8, 2)` the stored Add
piece has `offset + length = 8` while the add buffer has length 3. -/
theorem delete_breaks_bounds :
  (((PieceTable.new ("abcde").data).insert 5 ("fgh").data).bind (fun t => t.delete 8 2)
    = some ⟨("abcde").data, ("fgh").data,
        [⟨Buffer.Original, 5, 0⟩, ⟨Buffer.Add, 8, 0⟩]⟩)
  ∧ ¬ BufferBounds ⟨("abcde").data, ("fgh").data,
        [⟨Buffer.Original, 5, 0⟩, ⟨Buffer.Add, 8, 0⟩]⟩ := by
  constructor
  · decide
  · decide

/-- Claim C7: `delete(offset, 0)` can panic.  On the table for `abcdefghij`
with pieces `[Original 5, Add 5]`, the empty range `[7, 7)` lies strictly
inside the second piece's span `[5, 10)`, so the `split` flag is set and the
second pass computes `piece.length.checked_sub(offset + 0) = 5 - 7`, whose
`unwrap()` panics (modelled as `none`). -/
theorem delete_zero_count_panics :
  ((PieceTable.new ("abcde").data).insert 5 ("fghij").data).bind
    (fun t => t.delete 7 0) = none := by
  rfl

/-- Claim C9 (counterexample): on the table built by `new("")` — which
stores a zero-length piece — `insert(0, "x")` has `offset == length() == 0`
and takes the prepend branch, so the new Add piece is placed before the
stored zero-length piece, not at the end of the sequence. -/
theorem insert_at_end_cex :
  ((PieceTable.new []).insert 0 ("x").data
    = some ⟨[], ("x").data, [⟨Buffer.Add, 1, 0⟩, ⟨Buffer.Original, 0, 0⟩]⟩)
  ∧ ([⟨Buffer.Add, 1, 0⟩, ⟨Buffer.Original, 0, 0⟩] : List Piece)
      ≠ (PieceTable.new []).pieces ++ [⟨Buffer.Add, 1, 0⟩] := by
  constructor
  · rfl
  · decide

/-- Inverting a successful `checked_sub`. -/
theorem checked_sub_some {a b c : Nat} (h : checked_sub a b = some c) : b ≤ a ∧ c = a - b := by
  unfold checked_sub at h
  split at h
  next hba => injection h with h'; exact ⟨hba, h'.symm⟩
  next hba => cases h

/-- `checked_sub` succeeds when no underflow occurs. -/
theorem checked_sub_of_le {a b : Nat} (h : b ≤ a) : checked_sub a b = some (a - b) := by
  unfold checked_sub
  rw [if_pos h]

/-- What a `piece_at` hit guarantees: the hit's running total lies between
the scan's starting total and the queried offset, the offset falls inside
the hit's span, the returned index is in range, and an index equal to the
starting index means the running total is the starting one. -/
theorem pieceAtAux_some (off : Nat) :
    ∀ (ps : List Piece) (idx rt : Nat) (p : Piece) (i rt' : Nat),
      pieceAtAux off ps idx rt = some (p, i, rt') →
      rt ≤ rt' ∧ rt' ≤ off ∧ off < rt' + p.length ∧ idx ≤ i ∧ i - idx < ps.length
        ∧ (i = idx → rt' = rt) := by
  intro ps
  induction ps with
  | nil => intro idx rt p i rt' h; cases h
  | cons q qs ih =>
    intro idx rt p i rt' h
    unfold pieceAtAux at h
    split at h
    next hcond =>
      injection h with h'
      injection h' with h1 h2
      injection h2 with h2 h3
      subst h1; subst h2; subst h3
      obtain ⟨hc1, hc2⟩ := hcond
      refine ⟨Nat.le_refl _, hc1, by omega, Nat.le_refl _, by simp, fun _ => rfl⟩
    next hcond =>
      obtain ⟨a1, a2, a3, a4, a5, _⟩ := ih (idx + 1) (rt + q.length) p i rt' h
      refine ⟨by omega, a2, a3, by omega, ?_, ?_⟩
      · simp only [List.length_cons]; omega
      · intro hi; omega

/-- The `piece_at` scan always finds a piece for an offset below the
remaining total length. -/
theorem pieceAtAux_isSome (off : Nat) :
    ∀ (ps : List Piece) (idx rt : Nat), rt ≤ off → off < rt + totalLen ps →
      (pieceAtAux off ps idx rt).isSome := by
  intro ps
  induction ps with
  | nil =>
    intro idx rt h1 h2
    unfold totalLen at h2
    omega
  | cons q qs ih =>
    intro idx rt h1 h2
    unfold pieceAtAux
    split
    · rfl
    next hcond =>
      push_neg at hcond
      have hge : q.length + rt ≤ off := hcond h1
      apply ih
      · omega
      · unfold totalLen at h2
        omega

/-- The inserted element is a member of the result of `vecInsert`. -/
theorem mem_vecInsert_self {α : Type} (l : List α) (i : Nat) (a : α) : a ∈ vecInsert l i a := by
  unfold vecInsert
  exact List.mem_append.mpr (Or.inr (List.mem_cons_self a _))

/-- `vecInsert` keeps every existing member. -/
theorem mem_vecInsert_of_mem {α : Type} {l : List α} {b : α} (i : Nat) (a : α) (h : b ∈ l) :
    b ∈ vecInsert l i a := by
  unfold vecInsert
  rw [← List.take_append_drop i l] at h
  rcases List.mem_append.mp h with h1 | h1
  · exact List.mem_append.mpr (Or.inl h1)
  · exact List.mem_append.mpr (Or.inr (List.mem_cons_of_mem a h1))

/-- Dropping up to the insertion point exposes the inserted element. -/
theorem vecInsert_drop_self {α : Type} (a : α) :
    ∀ (i : Nat) (l : List α), i ≤ l.length → (vecInsert l i a).drop i = a :: l.drop i := by
  intro i
  induction i with
  | zero => intro l _; rfl
  | succ n ih =>
    intro l h
    cases l with
    | nil => simp at h
    | cons x xs =>
      have hstep : vecInsert (x :: xs) (n + 1) a = x :: vecInsert xs n a := rfl
      rw [hstep]
      show (vecInsert xs n a).drop n = a :: xs.drop n
      exact ih xs (by simpa using h)

/-- Members beyond the overwritten position survive `vecSet`. -/
theorem mem_vecSet_right {α : Type} {l : List α} {i : Nat} {b : α} (a : α)
    (h : b ∈ l.drop (i + 1)) : b ∈ vecSet l i a := by
  unfold vecSet
  exact List.mem_append.mpr (Or.inr (List.mem_cons_of_mem a h))

/-- Members beyond the removed position survive `vecRemove`. -/
theorem mem_vecRemove_right {α : Type} {l : List α} {i : Nat} {b : α}
    (h : b ∈ l.drop (i + 1)) : b ∈ vecRemove l i := by
  unfold vecRemove
  exact List.mem_append.mpr (Or.inr h)

/-- A piece within its buffer's bounds resolves to its substring. -/
theorem pieceContent_some {t : PieceTable} {p : Piece}
    (h : p.offset + p.length ≤ (bufferOf t p.buffer).length) :
    pieceContent t p = some (((bufferOf t p.buffer).drop p.offset).take p.length) := by
  unfold pieceContent
  rw [if_pos h]

/-- The substring a within-bounds piece resolves to has the piece's length. -/
theorem pieceContent_length {t : PieceTable} {p : Piece}
    (h : p.offset + p.length ≤ (bufferOf t p.buffer).length) :
    (((bufferOf t p.buffer).drop p.offset).take p.length).length = p.length := by
  rw [List.length_take, List.length_drop]
  omega

/-- Under the buffer-bounds invariant, `display` succeeds on a piece list
and produces a string whose length is the sum of the piece lengths. -/
theorem displayAux_bounds (t : PieceTable) :
    ∀ ps : List Piece, (∀ p ∈ ps, p.offset + p.length ≤ (bufferOf t p.buffer).length) →
      ∃ s, displayAux t ps = some s ∧ s.length = totalLen ps := by
  intro ps
  induction ps with
  | nil => intro _; exact ⟨[], rfl, rfl⟩
  | cons q qs ih =>
    intro hb
    obtain ⟨rest, hrest, hlen⟩ := ih (fun p hp => hb p (List.mem_cons_of_mem q hp))
    have hq := hb q (List.mem_cons_self q qs)
    refine ⟨((bufferOf t q.buffer).drop q.offset).take q.length ++ rest, ?_, ?_⟩
    · unfold displayAux
      rw [pieceContent_some hq, hrest]
    · rw [List.length_append, pieceContent_length hq]
      unfold totalLen
      omega

/-- The character the `piece_at` scan leads to is the character of the
concatenated piece contents at the corresponding relative offset. -/
theorem displayAux_get (t : PieceTable) :
    ∀ (ps : List Piece) (idx rt off : Nat) (s : List Char),
      (∀ p ∈ ps, p.offset + p.length ≤ (bufferOf t p.buffer).length) →
      displayAux t ps = some s → rt ≤ off →
      (match pieceAtAux off ps idx rt with
       | some (p, _i, rt') => (bufferOf t p.buffer).get? (p.offset + off - rt')
       | none => none) = s.get? (off - rt) := by
  intro ps
  induction ps with
  | nil =>
    intro idx rt off s _ hs _
    unfold displayAux at hs
    injection hs with hs
    subst hs
    rfl
  | cons q qs ih =>
    intro idx rt off s hb hs hle
    have hq := hb q (List.mem_cons_self q qs)
    obtain ⟨rest, hrest, hrlen⟩ :=
      displayAux_bounds t qs (fun p hp => hb p (List.mem_cons_of_mem q hp))
    unfold displayAux at hs
    rw [pieceContent_some hq, hrest] at hs
    injection hs with hs
    subst hs
    have hclen : (((bufferOf t q.buffer).drop q.offset).take q.length).length = q.length :=
      pieceContent_length hq
    unfold pieceAtAux
    by_cases hcond : rt ≤ off ∧ off < q.length + rt
    · rw [if_pos hcond]
      obtain ⟨h1, h2⟩ := hcond
      have hoff : off - rt < q.length := by omega
      show (bufferOf t q.buffer).get? (q.offset + off - rt)
        = ((((bufferOf t q.buffer).drop q.offset).take q.length) ++ rest).get? (off - rt)
      rw [List.get?_append (by rw [hclen]; exact hoff)]
      rw [List.get?_take hoff, List.get?_drop]
      rw [Nat.add_sub_assoc hle]
    · rw [if_neg hcond]
      have hge : q.length + rt ≤ off := by
        rcases Nat.lt_or_ge off (q.length + rt) with hlt | hge2
        · exact absurd ⟨hle, hlt⟩ hcond
        · exact hge2
      have key := ih (idx + 1) (rt + q.length) off rest
        (fun p hp => hb p (List.mem_cons_of_mem q hp)) hrest (by omega)
      rw [key]
      rw [List.get?_append_right (by rw [hclen]; omega)]
      rw [hclen]
      congr 1
      omega

/-- Claim C6: under the buffer-bounds invariant (spec §3 invariant 2, which
the spec requires before every public operation), `char_at` agrees with the
materialized document at every offset: it returns the character at position
`offset` of `display`'s output when `offset < length()` and `none` when
`offset ≥ length()`, and it never panics. -/
theorem char_at_matches_display (t : PieceTable) (h : BufferBounds t) :
    ∃ s, t.display = some s ∧ s.length = t.length ∧ ∀ off, t.char_at off = s.get? off := by
  obtain ⟨s, hs, hlen⟩ := displayAux_bounds t t.pieces h
  refine ⟨s, hs, hlen, ?_⟩
  intro off
  have key := displayAux_get t t.pieces 0 0 off s h hs (Nat.zero_le off)
  rw [Nat.sub_zero] at key
  rw [← key]
  unfold PieceTable.char_at PieceTable.piece_at
  cases hpc : pieceAtAux off t.pieces 0 0 with
  | none => rfl
  | some x =>
    obtain ⟨p, i, rt'⟩ := x
    show (match p.buffer with
          | Buffer.Original => t.original.get? (p.offset + off - rt')
          | Buffer.Add => t.add.get? (p.offset + off - rt'))
        = (bufferOf t p.buffer).get? (p.offset + off - rt')
    cases p.buffer <;> rfl

/-- Witness for C6 at the table `new("ab")`. -/
theorem char_at_matches_display_witness :
    BufferBounds (PieceTable.new ("ab").data) ∧
    ∃ s, (PieceTable.new ("ab").data).display = some s ∧
      s.length = (PieceTable.new ("ab").data).length ∧
      ∀ off, (PieceTable.new ("ab").data).char_at off = s.get? off :=
  ⟨by decide, char_at_matches_display (PieceTable.new ("ab").data) (by decide)⟩

/-- A table with no zero-length piece and total length 0 stores no pieces. -/
theorem pieces_nil_of_length_zero {t : PieceTable} (hz : NoZeroPieces t)
    (h : totalLen t.pieces = 0) : t.pieces = [] := by
  cases hps : t.pieces with
  | nil => rfl
  | cons p ps =>
    exfalso
    have hp := hz p (by rw [hps]; exact List.mem_cons_self p ps)
    rw [hps] at h
    unfold totalLen at h
    omega

/-- Claim C9 (amended): on a table whose stored pieces all have positive
length, inserting non-empty content at `offset == length()` appends exactly
one new Add piece, referencing the newly appended region of `add`, at the
end of the piece sequence, leaving every pre-existing piece unchanged. -/
theorem insert_at_end_appends (t : PieceTable) (hz : NoZeroPieces t)
    (c : List Char) (hc : c ≠ []) :
    t.insert t.length c =
      some { t with pieces := t.pieces ++ [⟨Buffer.Add, c.length, t.add.length⟩],
                    add := t.add ++ c } := by
  unfold PieceTable.insert
  simp only [if_neg hc]
  by_cases h0 : t.length = 0
  · have hnil : t.pieces = [] :=
      pieces_nil_of_length_zero hz (by unfold PieceTable.length at h0; exact h0)
    rw [if_pos h0, hnil]
    rfl
  · rw [if_neg h0, if_pos (Nat.le_refl t.length)]

/-- Witness for C9: `new("a")` satisfies the no-zero-pieces hypothesis, and
`insert(1, "b")` with `1 == length()` appends the new Add piece at the end. -/
theorem insert_at_end_appends_witness :
    (PieceTable.new ("a").data).insert 1 ("b").data =
      some ⟨("a").data, ("b").data, [⟨Buffer.Original, 1, 0⟩, ⟨Buffer.Add, 1, 0⟩]⟩ := by
  have h := insert_at_end_appends (PieceTable.new ("a").data) (by decide) (("b").data) (by decide)
  exact h

/-- Claim C10: `insert` terminates normally (no panic) on every table
satisfying the §3 invariants: the two `checked_sub(..).unwrap()` calls in the
middle-split branch succeed because `piece_at` guarantees
`running_total ≤ offset < running_total + piece.length`, and the `index -= 1`
decrement in the omitted-left-remainder branch only happens at `index ≥ 1`. -/
theorem insert_no_panic (t : PieceTable) (_hinv : Invariants t) (off : Nat) (c : List Char) :
    (t.insert off c).isSome := by
  unfold PieceTable.insert
  simp only []
  by_cases hc : c = []
  · rw [if_pos hc]; rfl
  rw [if_neg hc]
  by_cases h0 : off = 0
  · rw [if_pos h0]; rfl
  rw [if_neg h0]
  by_cases hlen : t.length ≤ off
  · rw [if_pos hlen]; rfl
  rw [if_neg hlen]
  split
  · rfl
  next piece_to_split index total hpa =>
    obtain ⟨b1, b2, b3, b4, b5, b6⟩ :=
      pieceAtAux_some off t.pieces 0 0 piece_to_split index total hpa
    simp only [checked_sub_of_le b2]
    have hrem : off - total ≤ piece_to_split.length := by omega
    simp only [checked_sub_of_le hrem]
    by_cases hpos : 0 < off - total
    · rw [if_pos hpos]; rfl
    rw [if_neg hpos]
    have hidx : index ≠ 0 := by
      intro hi
      have : total = 0 := b6 hi
      exact h0 (by omega)
    rw [if_neg hidx]
    rfl

/-- Witness for C10: the invariants hold for `new("abc")`, and an insert
strictly inside its single piece terminates normally. -/
theorem insert_no_panic_witness :
    Invariants (PieceTable.new ("abc").data) ∧
      ((PieceTable.new ("abc").data).insert 1 ("z").data).isSome :=
  ⟨by decide, insert_no_panic (PieceTable.new ("abc").data) (by decide) 1 (("z").data)⟩

/-- Claim C8: `original` is never mutated and `add` only grows.  Whenever an
insert completes, the original buffer is unchanged, the old `add` is a
prefix of the new one, and inserting non-empty content appends exactly that
content at `add`'s old end and stores a piece recording the appended
range's start offset and length; whenever a delete completes, both buffers
are completely unchanged. -/
theorem buffers_append_only (t : PieceTable) (off : Nat) (c : List Char) (n : Nat) :
    (∀ t', t.insert off c = some t' →
        t'.original = t.original ∧ (∃ r, t'.add = t.add ++ r) ∧
        (c ≠ [] → t'.add = t.add ++ c ∧
          (⟨Buffer.Add, c.length, t.add.length⟩ : Piece) ∈ t'.pieces))
    ∧ (∀ t', t.delete off n = some t' → t'.original = t.original ∧ t'.add = t.add) := by
  constructor
  · intro t' h
    unfold PieceTable.insert at h
    by_cases hc : c = []
    · rw [if_pos hc] at h
      injection h with h
      subst h
      refine ⟨rfl, ⟨[], (List.append_nil _).symm⟩, fun hne => absurd hc hne⟩
    rw [if_neg hc] at h
    by_cases h0 : off = 0
    · rw [if_pos h0] at h
      injection h with h
      subst h
      exact ⟨rfl, ⟨c, rfl⟩, fun _ => ⟨rfl, mem_vecInsert_self t.pieces 0 _⟩⟩
    rw [if_neg h0] at h
    by_cases hlen : t.length ≤ off
    · rw [if_pos hlen] at h
      injection h with h
      subst h
      exact ⟨rfl, ⟨c, rfl⟩,
        fun _ => ⟨rfl, List.mem_append.mpr (Or.inr (List.mem_cons_self _ _))⟩⟩
    rw [if_neg hlen] at h
    split at h
    · next hpa =>
        exfalso
        have hsome := pieceAtAux_isSome off t.pieces 0 0 (Nat.zero_le off)
          (by unfold PieceTable.length at hlen; omega)
        rw [show pieceAtAux off t.pieces 0 0 = t.piece_at off from rfl, hpa] at hsome
        cases hsome
    · next piece_to_split index total hpa =>
        obtain ⟨b1, b2, b3, b4, b5, b6⟩ :=
          pieceAtAux_some off t.pieces 0 0 piece_to_split index total hpa
        simp only [checked_sub_of_le b2] at h
        have hrem : off - total ≤ piece_to_split.length := by omega
        simp only [checked_sub_of_le hrem] at h
        have hle : index + 1 ≤ t.pieces.length := by omega
        by_cases hpos : 0 < off - total
        · rw [if_pos hpos] at h
          injection h with h
          subst h
          refine ⟨rfl, ⟨c, rfl⟩, fun _ => ⟨rfl, ?_⟩⟩
          apply mem_vecInsert_of_mem
          apply mem_vecSet_right
          rw [vecInsert_drop_self _ (index + 1) t.pieces hle]
          exact List.mem_cons_self _ _
        rw [if_neg hpos] at h
        have hidx : index ≠ 0 := by
          intro hi
          have : total = 0 := b6 hi
          exact h0 (by omega)
        rw [if_neg hidx] at h
        injection h with h
        subst h
        refine ⟨rfl, ⟨c, rfl⟩, fun _ => ⟨rfl, ?_⟩⟩
        apply mem_vecInsert_of_mem
        apply mem_vecRemove_right
        rw [vecInsert_drop_self _ (index + 1) t.pieces hle]
        exact List.mem_cons_self _ _
  · intro t' h
    unfold PieceTable.delete at h
    simp only [] at h
    repeat' split at h
    all_goals first
      | exact Option.noConfusion h
      | (injection h with h; subst h; exact ⟨rfl, rfl⟩)

/-- Witness for C8 at `new("ab")` with `insert(1, "c")` (which splits the
original piece) and `delete(0, 1)`. -/
theorem buffers_append_only_witness :
    ((⟨("ab").data, ("c").data,
        [⟨Buffer.Original, 1, 0⟩, ⟨Buffer.Add, 1, 0⟩, ⟨Buffer.Original, 1, 1⟩]⟩ :
        PieceTable).original = (PieceTable.new ("ab").data).original
      ∧ (⟨("ab").data, ("c").data,
          [⟨Buffer.Original, 1, 0⟩, ⟨Buffer.Add, 1, 0⟩, ⟨Buffer.Original, 1, 1⟩]⟩ :
          PieceTable).add = (PieceTable.new ("ab").data).add ++ ("c").data
      ∧ (⟨Buffer.Add, ("c").data.length, (PieceTable.new ("ab").data).add.length⟩ : Piece)
          ∈ (⟨("ab").data, ("c").data,
              [⟨Buffer.Original, 1, 0⟩, ⟨Buffer.Add, 1, 0⟩, ⟨Buffer.Original, 1, 1⟩]⟩ :
              PieceTable).pieces) := by
  have h := (buffers_append_only (PieceTable.new ("ab").data) 1 (("c").data) 1).1
    (⟨("ab").data, ("c").data,
      [⟨Buffer.Original, 1, 0⟩, ⟨Buffer.Add, 1, 0⟩, ⟨Buffer.Original, 1, 1⟩]⟩ : PieceTable)
    (by decide)
  exact ⟨h.1, (h.2.2 (by decide)).1, (h.2.2 (by decide)).2⟩
